import Mathlib

/-!
Shallow embedding of the texty editor core: `src/row.rs`, `src/document.rs`,
`src/highlighting.rs`.

Modelling choices:
* A row's content is kept as its list of grapheme clusters (the decomposition
  that `UnicodeSegmentation::graphemes(true)` produces), each cluster a list of
  Unicode scalar values.  Storage ("byte") offsets are measured in scalar
  values; a multi-scalar cluster therefore occupies several storage units, just
  as a multi-byte character does in the Rust source.
* The scanner loops of `Row::highlight` are written with an explicit fuel
  argument so that every definition is structurally recursive and evaluates
  inside the kernel.  Every call site passes fuel that provably exceeds the
  number of iterations the source loop can perform.
-/

/-- `highlighting::Type` from `src/highlighting.rs`. -/
inductive HighlightType where
  | None
  | Number
  | String
  | Character
  | Comment
  | PrimaryKeywords
  | SecondaryKeywords
  | Match
  deriving DecidableEq, Repr

/-- One grapheme cluster: a non-empty run of Unicode scalar values. -/
abbrev Grapheme := List Char

/-- Modelled from the spec: the `HighlightingOptions` record lives at the crate
root, outside `src/`; the spec describes it as the file type's highlighting
rule set — which token kinds are enabled plus the two keyword lists.  Only the
accessors used by `src/row.rs` are modelled. -/
structure HighlightingOptions where
  numbers : Bool
  strings : Bool
  characters : Bool
  comments : Bool
  primary_keywords : List (List Char)
  secondary_keywords : List (List Char)
  deriving DecidableEq, Repr

/-- `SearchDirection` from `src/editor.rs`. -/
inductive SearchDirection where
  | Forward
  | Backward
  deriving DecidableEq, Repr

/-- `Position` from `src/editor.rs`. -/
structure Position where
  x : Nat
  y : Nat
  deriving DecidableEq, Repr

/-- `Row` from `src/row.rs`: content, parallel highlight array, cached
grapheme count. -/
structure Row where
  content : List Grapheme
  highlighting : List HighlightType
  len : Nat
  deriving DecidableEq, Repr

instance : Inhabited Row := ⟨⟨[], [], 0⟩⟩

/-- `Row::default()` (derived `Default`). -/
def Row.default : Row := ⟨[], [], 0⟩

/-- `Row::from(&str)`: the constructor takes the already-segmented grapheme
list; `len` is the grapheme count. -/
def Row.ofGraphemes (s : List Grapheme) : Row := ⟨s, [], s.length⟩

/-- `is_separator` from `src/row.rs`: ASCII punctuation or ASCII whitespace. -/
def is_separator (c : Char) : Bool :=
  decide ((0x21 ≤ c.toNat ∧ c.toNat ≤ 0x2F) ∨ (0x3A ≤ c.toNat ∧ c.toNat ≤ 0x40) ∨
    (0x5B ≤ c.toNat ∧ c.toNat ≤ 0x60) ∨ (0x7B ≤ c.toNat ∧ c.toNat ≤ 0x7E) ∨
    c = ' ' ∨ c = '\t' ∨ c = '\n' ∨ c.toNat = 0x0C ∨ c = '\r')

/-- The grapheme-rebuilding loop in the `else` branch of `Row::insert`:
walks the graphemes with their index, splicing `[c]` in before index `atPos`
while recounting the length. -/
def insertLoop (c : Char) (atPos : Nat) : Nat → List Grapheme → List Grapheme × Nat
  | _, [] => ([], 0)
  | i, g :: gs =>
    let r := insertLoop c atPos (i + 1) gs
    if i = atPos then ([c] :: g :: r.1, r.2 + 2) else (g :: r.1, r.2 + 1)

/-- `Row::insert`. -/
def Row.insert (r : Row) (atPos : Nat) (c : Char) : Row :=
  if r.len ≤ atPos then { r with content := r.content ++ [[c]], len := r.len + 1 }
  else
    let res := insertLoop c atPos 0 r.content
    { r with content := res.1, len := res.2 }

/-- The grapheme-rebuilding loop of `Row::delete`: drops the grapheme at index
`atPos`, recounting the length. -/
def deleteLoop (atPos : Nat) : Nat → List Grapheme → List Grapheme × Nat
  | _, [] => ([], 0)
  | i, g :: gs =>
    let r := deleteLoop atPos (i + 1) gs
    if i = atPos then r else (g :: r.1, r.2 + 1)

/-- `Row::delete`. -/
def Row.delete (r : Row) (atPos : Nat) : Row :=
  if atPos < r.len then
    let res := deleteLoop atPos 0 r.content
    { r with content := res.1, len := res.2 }
  else r

/-- `Row::append`. -/
def Row.append (r other : Row) : Row :=
  { r with content := r.content ++ other.content, len := r.len + other.len }

/-- The splitting loop of `Row::split`: graphemes with index `< atPos` go to
the first row, the rest to the second, both recounted. -/
def splitLoop (atPos : Nat) : Nat → List Grapheme → (List Grapheme × Nat) × (List Grapheme × Nat)
  | _, [] => (([], 0), ([], 0))
  | i, g :: gs =>
    let r := splitLoop atPos (i + 1) gs
    if i < atPos then ((g :: r.1.1, r.1.2 + 1), r.2)
    else (r.1, (g :: r.2.1, r.2.2 + 1))

/-- `Row::split`: truncates `r` in place (keeping its highlight array) and
returns the second piece with an empty highlight array. -/
def Row.split (r : Row) (atPos : Nat) : Row × Row :=
  let res := splitLoop atPos 0 r.content
  ({ r with content := res.1.1, len := res.1.2 },
   { content := res.2.1, highlighting := [], len := res.2.2 })

/-- `str::find` on the scalar sequence: leftmost offset where `pat` occurs. -/
def strFind (pat : List Char) : List Char → Option Nat
  | [] => if pat.isPrefixOf ([] : List Char) then some 0 else none
  | c :: t =>
    if pat.isPrefixOf (c :: t) then some 0
    else (strFind pat t).map (fun n => n + 1)

/-- `str::rfind` on the scalar sequence: rightmost offset where `pat` occurs. -/
def strRFind (pat : List Char) : List Char → Option Nat
  | [] => if pat.isPrefixOf ([] : List Char) then some 0 else none
  | c :: t =>
    match (strRFind pat t).map (fun n => n + 1) with
    | some j => some j
    | none => if pat.isPrefixOf (c :: t) then some 0 else none

/-- The `grapheme_indices` walk at the end of `Row::find`: the first grapheme
whose storage offset equals `target` (offsets accumulate the scalar widths of
the preceding graphemes of the full content). -/
def byteToGrapheme (target : Nat) : List Grapheme → Nat → Nat → Option Nat
  | [], _, _ => none
  | g :: gs, gi, off =>
    if off = target then some gi
    else byteToGrapheme target gs (gi + 1) (off + g.length)

/-- `Row::find`. -/
def Row.find (r : Row) (query : List Char) (atPos : Nat) (d : SearchDirection) : Option Nat :=
  if r.len < atPos ∨ query = [] then none
  else
    let se : Nat × Nat :=
      if d = SearchDirection.Forward then (atPos, r.len) else (0, atPos)
    let substring := ((r.content.drop se.1).take (se.2 - se.1)).flatten
    let matchingIndex :=
      if d = SearchDirection.Forward then strFind query substring
      else strRFind query substring
    match matchingIndex with
    | some m =>
      match byteToGrapheme m r.content 0 0 with
      | some gi => some (se.1 + gi)
      | none => none
    | none => none

/-- The consume-until-closing-quote loop of `Row::highlight_strings`: pushes a
`String` tag for the scalar at `index`, stops after peeking a closing `"` (or
the end of the row) at `index + 1`.  Fuel: every call supplies more fuel than
`chars.length - index`, which bounds the iterations. -/
def stringTags : Nat → List Char → Nat → List HighlightType
  | 0, _, _ => []
  | fuel + 1, chars, index =>
    HighlightType.String ::
      (match chars[index + 1]? with
       | some c => if c = '"' then [] else stringTags fuel chars (index + 1)
       | none => [])

/-- `Row::highlight_strings`: fires on `"` when strings are enabled; consumes
through the closing quote (pushing one final `String` tag even when the row
ends first). -/
def highlight_strings (opts : HighlightingOptions) (chars : List Char) (index : Nat)
    (c : Char) : Option (List HighlightType) :=
  if opts.strings ∧ c = '"' then
    some (stringTags (chars.length + 1) chars index ++ [HighlightType.String])
  else none

/-- The greedy consume loop of `Row::highlight_numbers`: keeps pushing `Number`
while the next scalar is `.`, `e`, `_` or an ASCII digit. -/
def numberTags : Nat → List Char → Nat → List HighlightType
  | 0, _, _ => []
  | fuel + 1, chars, index =>
    HighlightType.Number ::
      (match chars[index + 1]? with
       | some c =>
         if c ≠ '.' ∧ c ≠ 'e' ∧ c ≠ '_' ∧ ¬ c.isDigit then []
         else numberTags fuel chars (index + 1)
       | none => [])

/-- `Row::highlight_numbers`: fires on an ASCII digit when numbers are enabled
and the previous scalar (if any) is a separator.  (`chars[index - 1]` is always
in bounds at call sites since `index < chars.length`; the model defaults it.) -/
def highlight_numbers (opts : HighlightingOptions) (chars : List Char) (index : Nat)
    (c : Char) : Option (List HighlightType) :=
  if opts.numbers ∧ c.isDigit then
    if 0 < index ∧ ¬ is_separator (chars.getD (index - 1) ' ') then none
    else some (numberTags (chars.length + 1) chars index)
  else none

/-- `Row::highlight_char`: fires on `'` when characters are enabled and the
scalar 2 (or 3, after a backslash) positions ahead is a closing `'`; consumes
the whole span. -/
def highlight_char (opts : HighlightingOptions) (chars : List Char) (index : Nat)
    (c : Char) : Option (List HighlightType) :=
  if opts.characters ∧ c = '\'' then
    match chars[index + 1]? with
    | none => none
    | some next =>
      let closingIndex := if next = '\\' then index + 3 else index + 2
      match chars[closingIndex]? with
      | some closing =>
        if closing = '\'' then
          some (List.replicate (closingIndex - index + 1) HighlightType.Character)
        else none
      | none => none
  else none

/-- `Row::highlight_comments`: fires on `//` when comments are enabled;
consumes to the end of the row. -/
def highlight_comments (opts : HighlightingOptions) (chars : List Char) (index : Nat)
    (c : Char) : Option (List HighlightType) :=
  if opts.comments ∧ c = '/' ∧ index < chars.length then
    match chars[index + 1]? with
    | some next =>
      if next = '/' then some (List.replicate (chars.length - index) HighlightType.Comment)
      else none
    | none => none
  else none

/-- The keyword scan of `Row::highlight_keywords`: for each keyword in order,
skip it when the scalar right after where it would end exists and is not a
separator; otherwise try the character-by-character comparison of
`Row::highlight_substring` (which rejects the empty keyword). -/
def findKeyword (chars : List Char) (index : Nat) : List (List Char) → Option (List Char)
  | [] => none
  | w :: ws =>
    if index < chars.length - w.length ∧ ¬ is_separator (chars.getD (index + w.length) ' ') then
      findKeyword chars index ws
    else if ¬ w.isEmpty ∧ w.isPrefixOf (chars.drop index) then some w
    else findKeyword chars index ws

/-- `Row::highlight_keywords`: requires a separator (or row start) before the
keyword; the winning keyword contributes one tag per storage unit of its
text. -/
def highlight_keywords (chars : List Char) (index : Nat) (keywords : List (List Char))
    (hl : HighlightType) : Option (List HighlightType) :=
  if 0 < index ∧ ¬ is_separator (chars.getD (index - 1) ' ') then none
  else
    match findKeyword chars index keywords with
    | some w => some (List.replicate w.length hl)
    | none => none

/-- `Row::highlight_primary_keywords`. -/
def highlight_primary_keywords (opts : HighlightingOptions) (chars : List Char)
    (index : Nat) : Option (List HighlightType) :=
  highlight_keywords chars index opts.primary_keywords HighlightType.PrimaryKeywords

/-- `Row::highlight_secondary_keywords`. -/
def highlight_secondary_keywords (opts : HighlightingOptions) (chars : List Char)
    (index : Nat) : Option (List HighlightType) :=
  highlight_keywords chars index opts.secondary_keywords HighlightType.SecondaryKeywords

/-- The matcher dispatch inside the `while` loop of `Row::highlight`, in the
source's priority order.  When a matcher fires it contributes its tag list and
the cursor advances by exactly that many scalars (each Rust matcher pairs every
push with `*index += 1`). -/
def tryMatchers (opts : HighlightingOptions) (chars : List Char) (index : Nat)
    (c : Char) : Option (List HighlightType) :=
  match highlight_numbers opts chars index c with
  | some t => some t
  | none =>
    match highlight_strings opts chars index c with
    | some t => some t
    | none =>
      match highlight_char opts chars index c with
      | some t => some t
      | none =>
        match highlight_comments opts chars index c with
        | some t => some t
        | none =>
          match highlight_primary_keywords opts chars index with
          | some t => some t
          | none => highlight_secondary_keywords opts chars index

/-- The `while let Some(c) = chars.get(index)` loop of `Row::highlight`.
Fuel: the cursor advances at least one scalar per iteration and the loop stops
once it passes the end, so `chars.length + 1` iterations always suffice. -/
def highlightLoop : Nat → HighlightingOptions → List Char → Nat → List HighlightType
  | 0, _, _, _ => []
  | fuel + 1, opts, chars, index =>
    match chars[index]? with
    | none => []
    | some c =>
      match tryMatchers opts chars index c with
      | some tags => tags ++ highlightLoop fuel opts chars (index + tags.length)
      | none => HighlightType.None :: highlightLoop fuel opts chars (index + 1)

/-- `for i in start..start+n { highlighting[i] = Match }` (out-of-range writes
cannot occur at the loop's call sites; `List.set` ignores them). -/
def overlayN (hl : List HighlightType) : Nat → Nat → List HighlightType
  | _, 0 => hl
  | a, n + 1 => overlayN (hl.set a HighlightType.Match) (a + 1) n

/-- The search loop of `Row::highlight_matches`: repeated forward `find` calls;
on a hit at `m` the source overlays indices
`search_index.saturating_add(search_match) .. search_match + word_len` and
continues from `next_index`.  Fuel: `search_index` grows by at least the
(non-empty) word length per iteration and `find` fails past `r.len`, so
`r.len + 1` iterations suffice (a cut-off iteration could only be one whose
`find` fails, which leaves the array unchanged anyway). -/
def matchLoop : Nat → Row → List Grapheme → Nat → List HighlightType → List HighlightType
  | 0, _, _, _, hl => hl
  | fuel + 1, r, w, searchIndex, hl =>
    match r.find w.flatten searchIndex SearchDirection.Forward with
    | none => hl
    | some m =>
      let nextIndex := m + w.length
      matchLoop fuel r w nextIndex
        (overlayN hl (searchIndex + m) (nextIndex - (searchIndex + m)))

/-- `Row::highlight_matches`.  The search word is taken already segmented into
graphemes: `find` consumes its scalar sequence, the advance uses its grapheme
count, mirroring `word[..].graphemes(true).count()`. -/
def Row.highlight_matches (r : Row) (word : Option (List Grapheme)) : Row :=
  match word with
  | none => r
  | some w =>
    if w.isEmpty then r
    else { r with highlighting := matchLoop (r.len + 1) r w 0 r.highlighting }

/-- `Row::highlight`: full rescan of the scalar sequence followed by the
`Match` overlay pass. -/
def Row.highlight (r : Row) (opts : HighlightingOptions) (word : Option (List Grapheme)) : Row :=
  let chars := r.content.flatten
  Row.highlight_matches { r with highlighting := highlightLoop (chars.length + 1) opts chars 0 }
    word

/-- `Document` from `src/document.rs`.  `FileType` lives outside `src/`; only
its `highlighting_options()` is consumed by this component, so the stored file
type is modelled by that rule set (see `HighlightingOptions`). -/
structure Document where
  rows : List Row
  filename : Option (List Char)
  is_dirty : Bool
  file_type : HighlightingOptions
  deriving DecidableEq, Repr

/-- `Document::len`. -/
def Document.len (d : Document) : Nat := d.rows.length

/-- `Document::insert_newline`. -/
def Document.insert_newline (d : Document) (p : Position) : Document :=
  let len := d.len
  if len < p.y then d
  else if p.y = len then { d with rows := d.rows ++ [Row.default] }
  else
    let currentRow := d.rows.getD p.y default
    let pair := currentRow.split p.x
    let current2 := pair.1.highlight d.file_type none
    let new2 := pair.2.highlight d.file_type none
    { d with rows := ((d.rows.set p.y current2).insertIdx (p.y + 1) new2) }

/-- `Document::insert`. -/
def Document.insert (d : Document) (p : Position) (c : Char) : Document :=
  let d1 := { d with is_dirty := true }
  if c = '\n' then d1.insert_newline p
  else if d1.len ≤ p.y then
    let row := (Row.default.insert 0 c).highlight d1.file_type none
    { d1 with rows := d1.rows ++ [row] }
  else
    let row := ((d1.rows.getD p.y default).insert p.x c).highlight d1.file_type none
    { d1 with rows := d1.rows.set p.y row }

/-- `Document::delete`.  (`rows.remove(at.y + 1)` erases at an index above
`at.y`, so the row later fetched with `get_mut(at.y)` is the one read before
the removal.) -/
def Document.delete (d : Document) (p : Position) : Document :=
  let len := d.len
  if len ≤ p.y then d
  else
    let d1 := { d with is_dirty := true }
    let row := d1.rows.getD p.y default
    if p.x = row.len ∧ p.y + 1 < len then
      let nextRow := d1.rows.getD (p.y + 1) default
      let merged := (row.append nextRow).highlight d1.file_type none
      { d1 with rows := (d1.rows.eraseIdx (p.y + 1)).set p.y merged }
    else
      { d1 with rows := d1.rows.set p.y ((row.delete p.x).highlight d1.file_type none) }

/-- The row-writing loop of `Document::save`: for each row, write its bytes
(`i`-th I/O call), write `"\n"` (`(i+1)`-th call), then re-highlight the row;
an error stops the loop with the rows written so far re-highlighted.  The
outcome of each fallible I/O call is supplied by the `writeRes` oracle
(`none` = success). -/
def saveRows {E : Type} (opts : HighlightingOptions) (writeRes : Nat → Option E) :
    Nat → List Row → Option E × List Row
  | _, [] => (none, [])
  | i, r :: rs =>
    match writeRes i with
    | some e => (some e, r :: rs)
    | none =>
      match writeRes (i + 1) with
      | some e => (some e, r :: rs)
      | none =>
        let r2 := r.highlight opts none
        let rest := saveRows opts writeRes (i + 2) rs
        (rest.1, r2 :: rest.2)

/-- `Document::save`.  The file system is abstracted: `created` is the outcome
of `fs::File::create` and `writeRes` the outcomes of the successive
`write_all` calls; `fileTypeOf` is `FileType::from` reduced to its
highlighting options (the crate-root `FileType` is outside `src/`).  The
returned pair is (propagated error, document state after the call) — on an
early `?` return the mutations already performed persist, as with `&mut
self`. -/
def Document.save {E : Type} (d : Document) (fileTypeOf : List Char → HighlightingOptions)
    (created : Option E) (writeRes : Nat → Option E) : Option E × Document :=
  match d.filename with
  | none => (none, d)
  | some name =>
    match created with
    | some e => (some e, d)
    | none =>
      let opts := fileTypeOf name
      let d1 := { d with file_type := opts }
      let res := saveRows opts writeRes 0 d1.rows
      match res.1 with
      | some e => (some e, { d1 with rows := res.2 })
      | none => (none, { d1 with rows := res.2, is_dirty := false })

/-- The search contract exactly as the spec words it (spec-side definition for
the refinement comparison of claim C4): the grapheme index of the first match
of the query, Forward searching graphemes `[at, len)`, Backward searching
`[0, at)` from the right; empty query or `at > len` yields no match. -/
def Row.findSpec (r : Row) (query : List Char) (atPos : Nat) (d : SearchDirection) : Option Nat :=
  if r.len < atPos ∨ query = [] then none
  else
    match d with
    | SearchDirection.Forward =>
      (List.range' atPos (r.len - atPos)).find?
        (fun i => query.isPrefixOf ((r.content.drop i).flatten))
    | SearchDirection.Backward =>
      (List.range' 0 atPos).reverse.find?
        (fun i => query.isPrefixOf (((r.content.take atPos).drop i).flatten))

/-- A row of single-scalar graphemes (every storage unit is its own grapheme,
e.g. ASCII content). -/
def asciiRow (s : List Char) : Row := Row.ofGraphemes (s.map (fun c => [c]))

/-- Modelled from the spec: `Grapheme_Extend` scalars of the Combining
Diacritical Marks block (U+0300-U+036F).  The source delegates segmentation to
the `unicode_segmentation` crate (UAX#29); this fragment is all the model
needs to express cluster merging at a mutation seam. -/
def isExtend (c : Char) : Bool :=
  decide (0x300 ≤ c.toNat ∧ c.toNat ≤ 0x36F)

/-- Worker for `reSegment`: `cur` is the current cluster, reversed. -/
def reSegAux (cur : List Char) : List Char → List (List Char)
  | [] => [cur.reverse]
  | c :: rest =>
    if isExtend c then reSegAux (c :: cur) rest
    else cur.reverse :: reSegAux [c] rest

/-- Modelled from the spec: `graphemes(true)` — UAX#29 extended grapheme
cluster segmentation — restricted to scalar streams containing no CR/LF,
control, Hangul-jamo, regional-indicator, ZWJ, prepend or SpacingMark
scalars, where the only applicable rule is GB9: do not break before an
Extend scalar.  On such streams every break falls exactly before each
non-Extend scalar. -/
def reSegment : List Char → List (List Char)
  | [] => []
  | c :: rest => reSegAux [c] rest

/-- A base (non-Extend) scalar followed only by Extend scalars — the shape of
every cluster `reSegment` produces when the stream starts with a base
scalar. -/
def goodCluster : Grapheme → Bool
  | [] => false
  | h :: t => !isExtend h && t.all isExtend

/-- Concrete fixtures used by the witness and counterexample theorems. -/
def docFooBar : Document :=
  ⟨[asciiRow "foo".toList, asciiRow "bar".toList], none, false,
   ⟨false, false, false, false, [], []⟩⟩

def emptyDoc : Document := ⟨[], none, false, ⟨false, false, false, false, [], []⟩⟩

def docOneRow : Document :=
  ⟨[asciiRow "hi".toList], none, false, ⟨false, false, false, false, [], []⟩⟩

def docTwoRows : Document :=
  ⟨[asciiRow "ab".toList, asciiRow "cd".toList], none, false,
   ⟨false, false, false, false, [], []⟩⟩

def optsOff : HighlightingOptions := ⟨false, false, false, false, [], []⟩

def docNamed : Document := ⟨[asciiRow "a".toList], some ['f'], true, optsOff⟩

def optsStr : HighlightingOptions := ⟨false, true, false, false, [], []⟩

/-- Well-formedness of a row: the cached `len` equals the grapheme count of
the content — the invariant claim C3 is about. -/
abbrev Row.wf (r : Row) : Prop := r.len = r.content.length

theorem splitLoop_eq (atPos : Nat) :
    ∀ (gs : List Grapheme) (i : Nat),
      splitLoop atPos i gs =
        ((gs.take (atPos - i), min (atPos - i) gs.length),
         (gs.drop (atPos - i), gs.length - (atPos - i))) := by
  intro gs
  induction gs with
  | nil => intro i; simp [splitLoop]
  | cons g gs ih =>
    intro i
    by_cases h : i < atPos
    · have h1 : atPos - i = (atPos - (i + 1)) + 1 := by omega
      simp only [splitLoop, ih (i + 1), if_pos h, h1, List.take_succ_cons,
        List.drop_succ_cons, List.length_cons, Prod.mk.injEq]
      refine ⟨⟨trivial, by omega⟩, trivial, by omega⟩
    · have h1 : atPos - i = 0 := by omega
      have h2 : atPos - (i + 1) = 0 := by omega
      simp [splitLoop, ih (i + 1), if_neg h, h1, h2]

theorem Row.split_eq (r : Row) (atPos : Nat) :
    r.split atPos =
      ({ r with content := r.content.take atPos, len := min atPos r.content.length },
       ⟨r.content.drop atPos, [], r.content.length - atPos⟩) := by
  simp [Row.split, splitLoop_eq]

theorem insertLoop_eq (c : Char) (atPos : Nat) :
    ∀ (gs : List Grapheme) (i : Nat),
      (insertLoop c atPos i gs).2 = (insertLoop c atPos i gs).1.length ∧
      (insertLoop c atPos i gs).1.length =
        gs.length + (if i ≤ atPos ∧ atPos < i + gs.length then 1 else 0) := by
  intro gs
  induction gs with
  | nil =>
    intro i
    refine ⟨rfl, ?_⟩
    simp only [insertLoop, List.length_nil]
    rw [if_neg (by omega)]
  | cons g gs ih =>
    intro i
    obtain ⟨ih1, ih2⟩ := ih (i + 1)
    by_cases h : i = atPos
    · refine ⟨?_, ?_⟩
      · simp only [insertLoop, if_pos h, List.length_cons]
        omega
      · simp only [insertLoop, if_pos h, List.length_cons]
        rw [ih2] at ih1 ⊢
        split_ifs at * <;> omega
    · refine ⟨?_, ?_⟩
      · simp only [insertLoop, if_neg h, List.length_cons]
        omega
      · simp only [insertLoop, if_neg h, List.length_cons]
        rw [ih2] at ih1 ⊢
        split_ifs at * <;> omega

theorem deleteLoop_eq (atPos : Nat) :
    ∀ (gs : List Grapheme) (i : Nat),
      (deleteLoop atPos i gs).2 = (deleteLoop atPos i gs).1.length ∧
      (deleteLoop atPos i gs).1.length =
        gs.length - (if i ≤ atPos ∧ atPos < i + gs.length then 1 else 0) := by
  intro gs
  induction gs with
  | nil =>
    intro i
    refine ⟨rfl, ?_⟩
    simp only [deleteLoop, List.length_nil]
    rw [if_neg (by omega)]
  | cons g gs ih =>
    intro i
    obtain ⟨ih1, ih2⟩ := ih (i + 1)
    by_cases h : i = atPos
    · refine ⟨?_, ?_⟩
      · simp only [deleteLoop, if_pos h]
        omega
      · simp only [deleteLoop, if_pos h, List.length_cons]
        rw [ih2] at ih1 ⊢
        split_ifs at * <;> omega
    · refine ⟨?_, ?_⟩
      · simp only [deleteLoop, if_neg h, List.length_cons]
        omega
      · simp only [deleteLoop, if_neg h, List.length_cons]
        rw [ih2] at ih1 ⊢
        split_ifs at * <;> omega

/-- Claim C5: for every row `R` and every `at` with `0 ≤ at ≤ len(R)`,
`split(at)` followed by `append` of the returned piece onto the truncated `R`
reconstructs `R`'s original content exactly. -/
theorem c5_split_append_roundtrip (r : Row) (atPos : Nat) (h : atPos ≤ r.len) :
    (((r.split atPos).1).append ((r.split atPos).2)).content = r.content := by
  simp [Row.split_eq, Row.append]

theorem c5_witness :
    2 ≤ (asciiRow "abcd".toList).len ∧
    ((((asciiRow "abcd".toList).split 2).1).append
        (((asciiRow "abcd".toList).split 2).2)).content =
      (asciiRow "abcd".toList).content :=
  ⟨by decide, c5_split_append_roundtrip (asciiRow "abcd".toList) 2 (by decide)⟩

/-- Each mutator re-establishes `len = cluster-list length` for the cluster
lists it builds (the source loops recount, the push/append paths add the
counts).  This speaks about the spliced cluster lists, not about the
re-segmentation of the stored text — see `c3_mutators_amended`. -/
theorem mutators_preserve_cached_len (r r2 : Row) (atPos : Nat) (c : Char)
    (h : r.wf) (h2 : r2.wf) :
    (r.insert atPos c).wf ∧ (r.delete atPos).wf ∧
    ((r.split atPos).1).wf ∧ ((r.split atPos).2).wf ∧ (r.append r2).wf := by
  refine ⟨?_, ?_, ?_, ?_, ?_⟩
  · unfold Row.insert
    by_cases hc : r.len ≤ atPos
    · simp only [if_pos hc, Row.wf] at *
      simp [h]
    · simp only [if_neg hc, Row.wf]
      exact (insertLoop_eq c atPos r.content 0).1
  · unfold Row.delete
    by_cases hc : atPos < r.len
    · simp only [if_pos hc, Row.wf]
      exact (deleteLoop_eq atPos r.content 0).1
    · simp only [if_neg hc]
      exact h
  · simp [Row.split_eq, Row.wf]
  · simp [Row.split_eq, Row.wf]
  · simp [Row.append, Row.wf, h, h2]

theorem Row.highlight_matches_content (r : Row) (w : Option (List Grapheme)) :
    (r.highlight_matches w).content = r.content := by
  unfold Row.highlight_matches
  cases w with
  | none => rfl
  | some w =>
    by_cases h : w.isEmpty
    · simp [h]
    · simp [h]

theorem Row.highlight_content (r : Row) (opts : HighlightingOptions)
    (w : Option (List Grapheme)) : (r.highlight opts w).content = r.content := by
  unfold Row.highlight
  rw [Row.highlight_matches_content]

theorem Row.highlight_len (r : Row) (opts : HighlightingOptions)
    (w : Option (List Grapheme)) : (r.highlight opts w).len = r.len := by
  unfold Row.highlight Row.highlight_matches
  cases w with
  | none => rfl
  | some w =>
    by_cases h : w.isEmpty
    · simp [h]
    · simp [h]

theorem getD_set_self {α : Type} [Inhabited α] (l : List α) (n : Nat) (v : α)
    (h : n < l.length) : (l.set n v).getD n default = v := by
  simp [List.getD, List.getElem?_set_self h]

theorem set_self_eq {α : Type} (l : List α) (n : Nat) (h : n < l.length) :
    l.set n l[n] = l := by
  apply List.ext_getElem
  · simp
  · intro i h1 h2
    rw [List.getElem_set]
    split
    · subst_vars; rfl
    · rfl

theorem map_content_set (l : List Row) (n : Nat) (v : Row) (h : n < l.length)
    (hv : v.content = (l.getD n default).content) :
    (l.set n v).map Row.content = l.map Row.content := by
  rw [List.map_set, hv, List.getD_eq_getElem l default h]
  have h2 : n < (l.map Row.content).length := by simpa using h
  have h3 : l[n].content = (l.map Row.content)[n] := by simp
  rw [h3, set_self_eq _ _ h2]

/-- Claim C6: deleting at a position whose offset is exactly the end of its
row, with a following row present, merges the following row's content onto the
current row and drops the row count by one. -/
theorem c6_delete_merges_rows (d : Document) (p : Position)
    (hy : p.y < d.rows.length)
    (hx : p.x = (d.rows.getD p.y default).len)
    (hn : p.y + 1 < d.rows.length) :
    (d.delete p).rows.length + 1 = d.rows.length ∧
    ((d.delete p).rows.getD p.y default).content =
      (d.rows.getD p.y default).content ++ (d.rows.getD (p.y + 1) default).content := by
  unfold Document.delete
  simp only [Document.len]
  rw [if_neg (by omega), if_pos ⟨hx, hn⟩]
  have hlen : (d.rows.eraseIdx (p.y + 1)).length = d.rows.length - 1 :=
    List.length_eraseIdx_of_lt hn
  constructor
  · simp only [List.length_set, hlen]
    omega
  · rw [getD_set_self _ _ _ (by omega)]
    rw [Row.highlight_content]
    rfl

theorem c6_witness :
    0 < docFooBar.rows.length ∧
    3 = (docFooBar.rows.getD 0 default).len ∧
    0 + 1 < docFooBar.rows.length ∧
    ((docFooBar.delete ⟨3, 0⟩).rows.length + 1 = docFooBar.rows.length ∧
     ((docFooBar.delete ⟨3, 0⟩).rows.getD 0 default).content =
       (docFooBar.rows.getD 0 default).content ++ (docFooBar.rows.getD 1 default).content) :=
  ⟨by decide, by decide, by decide,
   c6_delete_merges_rows docFooBar ⟨3, 0⟩ (by decide) (by decide) (by decide)⟩

/-- Claim C7 counterexample: inserting a plain character at `y = 1` in an
empty document (row count 0, so `y` is beyond the row count) is not a no-op —
a new row is appended. -/
theorem c7_counterexample :
    (emptyDoc.insert ⟨0, 1⟩ 'a').rows.length = 1 ∧ emptyDoc.rows.length = 0 ∧
    (emptyDoc.insert ⟨0, 1⟩ 'a').is_dirty = true ∧ emptyDoc.is_dirty = false := by
  decide

/-- Claim C7 amended: for positions with `y` beyond the row count, `delete` is
a silent no-op leaving the document (dirty flag included) unchanged, and
newline insertion leaves the row sequence unchanged (though `insert` has
already set the dirty flag); plain-character `insert` is not a no-op — it
appends a new row holding the character. -/
theorem c7_out_of_range_amended :
    (∀ (d : Document) (p : Position), d.rows.length ≤ p.y → d.delete p = d) ∧
    (∀ (d : Document) (p : Position), d.rows.length < p.y →
      (d.insert p '\n').rows = d.rows ∧ (d.insert p '\n').is_dirty = true) ∧
    (∀ (d : Document) (p : Position) (c : Char), c ≠ '\n' → d.rows.length ≤ p.y →
      (d.insert p c).rows =
        d.rows ++ [(Row.default.insert 0 c).highlight d.file_type none]) := by
  refine ⟨?_, ?_, ?_⟩
  · intro d p h
    unfold Document.delete
    simp only [Document.len]
    rw [if_pos h]
  · intro d p h
    constructor
    · simp [Document.insert, Document.insert_newline, Document.len, h]
    · simp [Document.insert, Document.insert_newline, Document.len, h]
  · intro d p c hc h
    simp [Document.insert, Document.insert_newline, Document.len, hc, h]

theorem c7_witness :
    (docOneRow.rows.length ≤ 5 ∧ docOneRow.delete ⟨0, 5⟩ = docOneRow) ∧
    (docOneRow.rows.length < 5 ∧ (docOneRow.insert ⟨0, 5⟩ '\n').rows = docOneRow.rows) ∧
    ('a' ≠ '\n' ∧ docOneRow.rows.length ≤ 5 ∧
      (docOneRow.insert ⟨0, 5⟩ 'a').rows =
        docOneRow.rows ++ [(Row.default.insert 0 'a').highlight docOneRow.file_type none]) :=
  ⟨⟨by decide, c7_out_of_range_amended.1 docOneRow ⟨0, 5⟩ (by decide)⟩,
   ⟨by decide, (c7_out_of_range_amended.2.1 docOneRow ⟨0, 5⟩ (by decide)).1⟩,
   ⟨by decide, by decide,
    c7_out_of_range_amended.2.2 docOneRow ⟨0, 5⟩ 'a' (by decide) (by decide)⟩⟩

/-- Claim C10: both mutators can set the dirty flag without changing any row
content — newline insert with `y` strictly beyond the row count changes no
row, and delete at the end of the last row (no following row) changes no
row's content. -/
theorem c10_dirty_without_content_change :
    (∀ (d : Document) (p : Position), d.rows.length < p.y →
      (d.insert p '\n').is_dirty = true ∧ (d.insert p '\n').rows = d.rows) ∧
    (∀ (d : Document) (p : Position), p.y + 1 = d.rows.length →
      p.x = (d.rows.getD p.y default).len →
      (d.delete p).is_dirty = true ∧
      (d.delete p).rows.map Row.content = d.rows.map Row.content) := by
  constructor
  · intro d p h
    constructor
    · simp [Document.insert, Document.insert_newline, Document.len, h]
    · simp [Document.insert, Document.insert_newline, Document.len, h]
  · intro d p hy hx
    unfold Document.delete
    simp only [Document.len]
    rw [if_neg (by omega), if_neg (by omega : ¬ (p.x = (d.rows.getD p.y default).len ∧ p.y + 1 < d.rows.length))]
    refine ⟨rfl, ?_⟩
    apply map_content_set _ _ _ (by omega)
    rw [Row.highlight_content]
    unfold Row.delete
    rw [if_neg (by omega)]

theorem c10_witness :
    (docOneRow.rows.length < 9 ∧
      ((docOneRow.insert ⟨0, 9⟩ '\n').is_dirty = true ∧
       (docOneRow.insert ⟨0, 9⟩ '\n').rows = docOneRow.rows)) ∧
    (1 + 1 = docTwoRows.rows.length ∧ 2 = (docTwoRows.rows.getD 1 default).len ∧
      ((docTwoRows.delete ⟨2, 1⟩).is_dirty = true ∧
       (docTwoRows.delete ⟨2, 1⟩).rows.map Row.content = docTwoRows.rows.map Row.content)) :=
  ⟨⟨by decide, c10_dirty_without_content_change.1 docOneRow ⟨0, 9⟩ (by decide)⟩,
   ⟨by decide, by decide,
    c10_dirty_without_content_change.2 docTwoRows ⟨2, 1⟩ (by decide) (by decide)⟩⟩

/-- Claim C8: `save` clears the dirty flag only when every write succeeds; an
I/O failure is propagated with the dirty flag left as it was; with no filename
associated, save performs no action and returns without error. -/
theorem c8_save_dirty_flag {E : Type} (d : Document) (ftOf : List Char → HighlightingOptions)
    (created : Option E) (writeRes : Nat → Option E) :
    (d.filename = none → d.save ftOf created writeRes = (none, d)) ∧
    (∀ e, (d.save ftOf created writeRes).1 = some e →
      (d.save ftOf created writeRes).2.is_dirty = d.is_dirty) ∧
    (d.filename ≠ none → (d.save ftOf created writeRes).1 = none →
      (d.save ftOf created writeRes).2.is_dirty = false) ∧
    (∀ name e, d.filename = some name → created = some e →
      (d.save ftOf created writeRes).1 = some e) := by
  unfold Document.save
  cases hf : d.filename with
  | none => simp
  | some name =>
    cases created with
    | some e => simp
    | none =>
      cases hr : (saveRows (ftOf name) writeRes 0 d.rows).1 with
      | some e => simp [hr]
      | none => simp [hr]

theorem c8_witness :
    ((docNamed.filename ≠ none) ∧
     ((docNamed.save (fun _ => optsOff) (none : Option Nat) (fun _ => none)).1 = none) ∧
     (docNamed.save (fun _ => optsOff) (none : Option Nat) (fun _ => none)).2.is_dirty = false) ∧
    (((docNamed.save (fun _ => optsOff) (none : Option Nat)
          (fun i => if i = 0 then some 7 else none)).1 = some 7) ∧
     (docNamed.save (fun _ => optsOff) (none : Option Nat)
          (fun i => if i = 0 then some 7 else none)).2.is_dirty = docNamed.is_dirty) :=
  ⟨⟨by decide, by decide,
    (c8_save_dirty_flag docNamed (fun _ => optsOff) none (fun _ => none)).2.2.1
      (by decide) (by decide)⟩,
   ⟨by decide,
    (c8_save_dirty_flag docNamed (fun _ => optsOff) none
        (fun i => if i = 0 then some 7 else none)).2.1 7 (by decide)⟩⟩

/-- Claim C1: the `Match` overlay pass misses occurrences after the first one.
For content `"abab"` and search word `"ab"`, the second occurrence (graphemes
2 and 3, which `find` does locate) keeps its lexical `None` tags because the
overlay range start doubles the running search index. -/
theorem c1_highlight_matches_misses_second_occurrence :
    (Row.highlight (asciiRow "abab".toList) optsOff (some [['a'], ['b']])).highlighting =
      [HighlightType.Match, HighlightType.Match, HighlightType.None, HighlightType.None] ∧
    Row.find (asciiRow "abab".toList) "ab".toList 2 SearchDirection.Forward = some 2 := by
  decide

theorem stringTags_length_le :
    ∀ (fuel : Nat) (chars : List Char) (index : Nat),
      chars.length + 1 ≤ index + fuel → index < chars.length →
      index + (stringTags fuel chars index).length ≤ chars.length := by
  intro fuel
  induction fuel with
  | zero => intro chars index hf hi; omega
  | succ fuel ih =>
    intro chars index hf hi
    simp only [stringTags]
    cases h : chars[index + 1]? with
    | none => simp; omega
    | some c =>
      by_cases hc : c = '"'
      · simp [hc]; omega
      · have hlt : index + 1 < chars.length := (List.getElem?_eq_some.mp h).1
        have := ih chars (index + 1) (by omega) hlt
        simp only [if_neg hc, List.length_cons]
        omega

theorem numberTags_length_le :
    ∀ (fuel : Nat) (chars : List Char) (index : Nat),
      chars.length + 1 ≤ index + fuel → index < chars.length →
      index + (numberTags fuel chars index).length ≤ chars.length := by
  intro fuel
  induction fuel with
  | zero => intro chars index hf hi; omega
  | succ fuel ih =>
    intro chars index hf hi
    simp only [numberTags]
    cases h : chars[index + 1]? with
    | none => simp; omega
    | some c =>
      by_cases hc : c ≠ '.' ∧ c ≠ 'e' ∧ c ≠ '_' ∧ ¬ c.isDigit
      · simp [hc]; omega
      · have hlt : index + 1 < chars.length := (List.getElem?_eq_some.mp h).1
        have := ih chars (index + 1) (by omega) hlt
        simp only [if_neg hc, List.length_cons]
        omega

theorem numberTags_pos (fuel : Nat) (chars : List Char) (index : Nat) (h : 0 < fuel) :
    0 < (numberTags fuel chars index).length := by
  cases fuel with
  | zero => omega
  | succ fuel => simp [numberTags]

theorem findKeyword_sound (chars : List Char) (index : Nat) :
    ∀ (ks : List (List Char)) (w : List Char), findKeyword chars index ks = some w →
      w ≠ [] ∧ w.isPrefixOf (chars.drop index) = true := by
  intro ks
  induction ks with
  | nil => intro w h; simp [findKeyword] at h
  | cons k ks ih =>
    intro w h
    unfold findKeyword at h
    split at h
    · exact ih w h
    · split at h
      · rename_i hcond
        cases h
        refine ⟨?_, hcond.2⟩
        have := hcond.1
        simpa [List.isEmpty_iff] using this
      · exact ih w h

theorem highlight_numbers_bound (opts : HighlightingOptions) (chars : List Char)
    (index : Nat) (c : Char) (tags : List HighlightType)
    (hi : index < chars.length) (h : highlight_numbers opts chars index c = some tags) :
    0 < tags.length ∧ index + tags.length ≤ chars.length := by
  unfold highlight_numbers at h
  split at h
  · split at h
    · exact absurd h (by simp)
    · cases h
      exact ⟨numberTags_pos _ _ _ (by omega),
        numberTags_length_le (chars.length + 1) chars index (by omega) hi⟩
  · exact absurd h (by simp)

theorem highlight_strings_bound (opts : HighlightingOptions) (chars : List Char)
    (index : Nat) (c : Char) (tags : List HighlightType)
    (hi : index < chars.length) (h : highlight_strings opts chars index c = some tags) :
    (0 < tags.length ∧ index + tags.length ≤ chars.length + 1) ∧ opts.strings = true := by
  unfold highlight_strings at h
  split at h
  · rename_i hcond
    cases h
    have := stringTags_length_le (chars.length + 1) chars index (by omega) hi
    refine ⟨⟨by simp, by simp; omega⟩, hcond.1⟩
  · exact absurd h (by simp)

theorem highlight_char_bound (opts : HighlightingOptions) (chars : List Char)
    (index : Nat) (c : Char) (tags : List HighlightType)
    (h : highlight_char opts chars index c = some tags) :
    0 < tags.length ∧ index + tags.length ≤ chars.length := by
  unfold highlight_char at h
  split at h
  · cases hn : chars[index + 1]? with
    | none => rw [hn] at h; exact absurd h (by simp)
    | some next =>
      rw [hn] at h
      simp only at h
      cases hcl : chars[if next = '\\' then index + 3 else index + 2]? with
      | none => rw [hcl] at h; exact absurd h (by simp)
      | some closing =>
        rw [hcl] at h
        simp only at h
        split at h
        · cases h
          have hlt : (if next = '\\' then index + 3 else index + 2) < chars.length :=
            (List.getElem?_eq_some.mp hcl).1
          simp only [List.length_replicate]
          split at hlt <;> simp_all <;> omega
        · exact absurd h (by simp)
  · exact absurd h (by simp)

theorem highlight_comments_bound (opts : HighlightingOptions) (chars : List Char)
    (index : Nat) (c : Char) (tags : List HighlightType)
    (h : highlight_comments opts chars index c = some tags) :
    0 < tags.length ∧ index + tags.length ≤ chars.length := by
  unfold highlight_comments at h
  split at h
  · rename_i hcond
    cases hn : chars[index + 1]? with
    | none => rw [hn] at h; exact absurd h (by simp)
    | some next =>
      rw [hn] at h
      simp only at h
      split at h
      · cases h
        simp only [List.length_replicate]
        omega
      · exact absurd h (by simp)
  · exact absurd h (by simp)

theorem isPrefixOf_length_le :
    ∀ (p l : List Char), p.isPrefixOf l = true → p.length ≤ l.length := by
  intro p
  induction p with
  | nil => intro l _; simp
  | cons a as ih =>
    intro l h
    cases l with
    | nil => cases h
    | cons b bs =>
      simp only [List.isPrefixOf, Bool.and_eq_true] at h
      have := ih bs h.2
      simp only [List.length_cons]
      omega

theorem highlight_keywords_bound (chars : List Char) (index : Nat)
    (ks : List (List Char)) (hl : HighlightType) (tags : List HighlightType)
    (h : highlight_keywords chars index ks hl = some tags) :
    0 < tags.length ∧ index + tags.length ≤ chars.length := by
  unfold highlight_keywords at h
  split at h
  · exact absurd h (by simp)
  · cases hk : findKeyword chars index ks with
    | none => rw [hk] at h; exact absurd h (by simp)
    | some w =>
      rw [hk] at h
      simp only at h
      cases h
      obtain ⟨hne, hpre⟩ := findKeyword_sound chars index ks w hk
      have hlen : w.length ≤ chars.length - index := by
        have := isPrefixOf_length_le w _ hpre
        simpa using this
      have hwpos : 0 < w.length := List.length_pos.mpr hne
      simp only [List.length_replicate]
      constructor
      · exact hwpos
      · by_cases hc : index ≤ chars.length
        · omega
        · exfalso
          have hnil : chars.drop index = [] := by
            rw [List.drop_eq_nil_iff]; omega
          rw [hnil] at hpre
          have := isPrefixOf_length_le w _ hpre
          simp at this
          omega

theorem tryMatchers_bounds (opts : HighlightingOptions) (chars : List Char)
    (index : Nat) (c : Char) (tags : List HighlightType)
    (hi : index < chars.length) (h : tryMatchers opts chars index c = some tags) :
    0 < tags.length ∧ index + tags.length ≤ chars.length + 1 ∧
    (opts.strings = false → index + tags.length ≤ chars.length) := by
  unfold tryMatchers at h
  cases h1 : highlight_numbers opts chars index c with
  | some t =>
    rw [h1] at h; cases h
    obtain ⟨a, b⟩ := highlight_numbers_bound opts chars index c _ hi h1
    exact ⟨a, by omega, fun _ => b⟩
  | none =>
  rw [h1] at h
  cases h2 : highlight_strings opts chars index c with
  | some t =>
    rw [h2] at h; cases h
    obtain ⟨⟨a, b⟩, hstr⟩ := highlight_strings_bound opts chars index c _ hi h2
    exact ⟨a, b, fun hf => by rw [hstr] at hf; cases hf⟩
  | none =>
  rw [h2] at h
  cases h3 : highlight_char opts chars index c with
  | some t =>
    rw [h3] at h; cases h
    obtain ⟨a, b⟩ := highlight_char_bound opts chars index c _ h3
    exact ⟨a, by omega, fun _ => b⟩
  | none =>
  rw [h3] at h
  cases h4 : highlight_comments opts chars index c with
  | some t =>
    rw [h4] at h; cases h
    obtain ⟨a, b⟩ := highlight_comments_bound opts chars index c _ h4
    exact ⟨a, by omega, fun _ => b⟩
  | none =>
  rw [h4] at h
  cases h5 : highlight_primary_keywords opts chars index with
  | some t =>
    rw [h5] at h; cases h
    obtain ⟨a, b⟩ := highlight_keywords_bound chars index _ _ _ h5
    exact ⟨a, by omega, fun _ => b⟩
  | none =>
  rw [h5] at h
  simp only at h
  obtain ⟨a, b⟩ := highlight_keywords_bound chars index _ _ _ h
  exact ⟨a, by omega, fun _ => b⟩

theorem highlightLoop_past (fuel : Nat) (opts : HighlightingOptions) (chars : List Char)
    (j : Nat) (h : chars.length ≤ j) : highlightLoop fuel opts chars j = [] := by
  cases fuel with
  | zero => rfl
  | succ fuel => simp [highlightLoop, List.getElem?_eq_none h]

theorem highlightLoop_length :
    ∀ (fuel : Nat) (opts : HighlightingOptions) (chars : List Char) (index : Nat),
      chars.length + 1 ≤ index + fuel → index ≤ chars.length →
      ((highlightLoop fuel opts chars index).length = chars.length - index ∨
       (highlightLoop fuel opts chars index).length = chars.length - index + 1) ∧
      (opts.strings = false →
       (highlightLoop fuel opts chars index).length = chars.length - index) := by
  intro fuel
  induction fuel with
  | zero => intro opts chars index hf hi; omega
  | succ fuel ih =>
    intro opts chars index hf hi
    simp only [highlightLoop]
    cases hg : chars[index]? with
    | none =>
      have : chars.length ≤ index := by
        by_contra hx
        exact absurd hg (by simp [List.getElem?_eq_getElem (by omega : index < chars.length)])
      have hq : chars.length - index = 0 := by omega
      simp [hq]
    | some c =>
      have hidx : index < chars.length := (List.getElem?_eq_some.mp hg).1
      simp only []
      cases hm : tryMatchers opts chars index c with
      | none =>
        simp only []
        obtain ⟨hd, hs⟩ := ih opts chars (index + 1) (by omega) (by omega)
        constructor
        · simp only [List.length_cons]
          omega
        · intro hsf
          have := hs hsf
          simp only [List.length_cons]
          omega
      | some tags =>
        simp only []
        obtain ⟨hpos, hb, hsf⟩ := tryMatchers_bounds opts chars index c tags hidx hm
        by_cases hover : index + tags.length ≤ chars.length
        · obtain ⟨hd, hs⟩ := ih opts chars (index + tags.length) (by omega) hover
          constructor
          · simp only [List.length_append]
            omega
          · intro hstr
            have := hs hstr
            have := hsf hstr
            simp only [List.length_append]
            omega
        · have heq : index + tags.length = chars.length + 1 := by omega
          rw [highlightLoop_past fuel opts chars (index + tags.length) (by omega)]
          constructor
          · right
            simp only [List.append_nil, List.length_append]
            omega
          · intro hstr
            have := hsf hstr
            omega

theorem overlayN_length :
    ∀ (n : Nat) (hl : List HighlightType) (a : Nat), (overlayN hl a n).length = hl.length := by
  intro n
  induction n with
  | zero => intro hl a; rfl
  | succ n ih => intro hl a; simp [overlayN, ih]

theorem matchLoop_length :
    ∀ (fuel : Nat) (r : Row) (w : List Grapheme) (s : Nat) (hl : List HighlightType),
      (matchLoop fuel r w s hl).length = hl.length := by
  intro fuel
  induction fuel with
  | zero => intro r w s hl; rfl
  | succ fuel ih =>
    intro r w s hl
    simp only [matchLoop]
    cases r.find w.flatten s SearchDirection.Forward with
    | none => rfl
    | some m => simp [ih, overlayN_length]

theorem highlight_highlighting_length (r : Row) (opts : HighlightingOptions)
    (word : Option (List Grapheme)) :
    (r.highlight opts word).highlighting.length =
      (highlightLoop (r.content.flatten.length + 1) opts r.content.flatten 0).length := by
  unfold Row.highlight Row.highlight_matches
  cases word with
  | none => rfl
  | some w =>
    by_cases h : w.isEmpty
    · simp [h]
    · simp [h, matchLoop_length]

/-- Claim C2 counterexample: a row holding one grapheme cluster of two scalar
values (e + combining acute).  After `highlight` the array has 2 entries while
the grapheme count is 1 — the scanner pushes one tag per Unicode scalar, not
per grapheme cluster. -/
theorem c2_counterexample :
    ((Row.ofGraphemes [['e', Char.ofNat 0x301]]).highlight optsOff none).highlighting.length = 2 ∧
    (Row.ofGraphemes [['e', Char.ofNat 0x301]]).content.length = 1 := by
  decide

/-- Claim C2 amended: immediately after `highlight` the array length equals
the Unicode-scalar count of the content whenever string highlighting is
disabled, and in general equals the scalar count or exceeds it by exactly one
(the extra slot arises from an unterminated string literal). -/
theorem c2_highlighting_length_amended (r : Row) (opts : HighlightingOptions)
    (word : Option (List Grapheme)) :
    ((r.highlight opts word).highlighting.length = r.content.flatten.length ∨
     (r.highlight opts word).highlighting.length = r.content.flatten.length + 1) ∧
    (opts.strings = false →
     (r.highlight opts word).highlighting.length = r.content.flatten.length) := by
  rw [highlight_highlighting_length]
  have := highlightLoop_length (r.content.flatten.length + 1) opts r.content.flatten 0
    (by omega) (by omega)
  simpa using this

theorem c2_witness :
    ((asciiRow "ab".toList).highlight optsOff none).highlighting.length =
      (asciiRow "ab".toList).content.flatten.length :=
  (c2_highlighting_length_amended (asciiRow "ab".toList) optsOff none).2 rfl

theorem count_drop_cons (l : List Char) (i : Nat) (hi : i < l.length) :
    (l.drop i).count '"' = (l.drop (i + 1)).count '"' + (if l[i] = '"' then 1 else 0) := by
  rw [List.drop_eq_getElem_cons hi, List.count_cons]
  simp [beq_iff_eq]

theorem getLast?_cons_of_ne_nil (a : HighlightType) (l : List HighlightType) (h : l ≠ []) :
    (a :: l).getLast? = l.getLast? := by
  have heq : a :: l = [a] ++ l := rfl
  rw [heq, List.getLast?_append_of_ne_nil _ h]

theorem tryMatchers_optsStr (chars : List Char) (index : Nat) (c : Char) :
    tryMatchers optsStr chars index c =
      if c = '"' then
        some (stringTags (chars.length + 1) chars index ++ [HighlightType.String])
      else none := by
  unfold tryMatchers highlight_numbers highlight_strings highlight_char highlight_comments
    highlight_primary_keywords highlight_secondary_keywords highlight_keywords findKeyword
  by_cases hc : c = '"' <;> simp [optsStr, hc]

theorem stringTags_spec :
    ∀ (fuel : Nat) (chars : List Char) (index : Nat),
      chars.length + 1 ≤ index + fuel → index < chars.length →
      (((chars.drop (index + 1)).count '"' = 0 →
          (stringTags fuel chars index).length = chars.length - index) ∧
       (0 < (chars.drop (index + 1)).count '"' →
          ∃ j, index < j ∧ j < chars.length ∧ chars[j]? = some '"' ∧
            (stringTags fuel chars index).length = j - index ∧
            (chars.drop (j + 1)).count '"' + 1 = (chars.drop (index + 1)).count '"')) := by
  intro fuel
  induction fuel with
  | zero => intro chars index hf hi; omega
  | succ fuel ih =>
    intro chars index hf hi
    simp only [stringTags]
    cases h : chars[index + 1]? with
    | none =>
      have hle : chars.length ≤ index + 1 := List.getElem?_eq_none_iff.mp h
      have hnil : chars.drop (index + 1) = [] := List.drop_eq_nil_iff.mpr hle
      rw [hnil]
      constructor
      · intro _
        simp only []
        simp
        omega
      · intro h0
        simp at h0
    | some c =>
      have hj : index + 1 < chars.length := (List.getElem?_eq_some.mp h).1
      have hcv : chars[index + 1] = c := (List.getElem?_eq_some.mp h).2
      have hcount := count_drop_cons chars (index + 1) hj
      rw [hcv] at hcount
      by_cases hc : c = '"'
      · simp only [if_pos hc]
        rw [if_pos hc] at hcount
        constructor
        · intro h0
          omega
        · intro _
          refine ⟨index + 1, by omega, hj, ?_, by simp, by omega⟩
          rw [h, hc]
      · simp only [if_neg hc]
        rw [if_neg hc] at hcount
        obtain ⟨ih1, ih2⟩ := ih chars (index + 1) (by omega) hj
        constructor
        · intro h0
          have := ih1 (by omega)
          simp only [List.length_cons]
          omega
        · intro h0
          obtain ⟨j, hj1, hj2, hj3, hj4, hj5⟩ := ih2 (by omega)
          refine ⟨j, by omega, hj2, hj3, ?_, by omega⟩
          simp only [List.length_cons]
          omega

theorem highlightLoop_optsStr :
    ∀ (fuel : Nat) (chars : List Char) (index : Nat),
      chars.length + 1 ≤ index + fuel → index ≤ chars.length →
      (((chars.drop index).count '"' % 2 = 0 →
        (highlightLoop fuel optsStr chars index).length = chars.length - index) ∧
       ((chars.drop index).count '"' % 2 = 1 →
        (highlightLoop fuel optsStr chars index).length = chars.length - index + 1 ∧
        (highlightLoop fuel optsStr chars index).getLast? = some HighlightType.String)) := by
  intro fuel
  induction fuel with
  | zero => intro chars index hf hi; omega
  | succ fuel ih =>
    intro chars index hf hi
    simp only [highlightLoop]
    cases hg : chars[index]? with
    | none =>
      have hge : chars.length ≤ index := List.getElem?_eq_none_iff.mp hg
      have hnil : chars.drop index = [] := List.drop_eq_nil_iff.mpr hge
      rw [hnil]
      constructor
      · intro _; simp; omega
      · intro h0; simp at h0
    | some c =>
      have hidx : index < chars.length := (List.getElem?_eq_some.mp hg).1
      have hcv : chars[index] = c := (List.getElem?_eq_some.mp hg).2
      have hcount := count_drop_cons chars index hidx
      rw [hcv] at hcount
      simp only []
      rw [tryMatchers_optsStr]
      by_cases hc : c = '"'
      · rw [if_pos hc] at hcount ⊢
        simp only []
        obtain ⟨sp1, sp2⟩ := stringTags_spec (chars.length + 1) chars index (by omega) hidx
        by_cases h0 : (chars.drop (index + 1)).count '"' = 0
        · have hS := sp1 h0
          rw [highlightLoop_past fuel optsStr chars _
            (by simp only [List.length_append, List.length_cons, List.length_nil, hS]; omega)]
          constructor
          · intro he
            omega
          · intro _
            constructor
            · simp only [List.append_nil, List.length_append, List.length_cons,
                List.length_nil, hS]
              try omega
            · rw [List.append_nil, List.getLast?_concat]
        · obtain ⟨j, hj1, hj2, hj3, hj4, hj5⟩ := sp2 (by omega)
          have harg : index + (stringTags (chars.length + 1) chars index ++
              [HighlightType.String]).length = j + 1 := by
            simp only [List.length_append, List.length_cons, List.length_nil, hj4]
            omega
          rw [harg]
          obtain ⟨e1, e2⟩ := ih chars (j + 1) (by omega) (by omega)
          constructor
          · intro he
            have := e1 (by omega)
            simp only [List.length_append, List.length_cons, List.length_nil, hj4]
            try omega
          · intro ho
            obtain ⟨l1, l2⟩ := e2 (by omega)
            have hnn : highlightLoop fuel optsStr chars (j + 1) ≠ [] := by
              intro hnil
              rw [hnil] at l1
              simp at l1
              try omega
            constructor
            · simp only [List.length_append, List.length_cons, List.length_nil, hj4]
              try omega
            · rw [List.getLast?_append_of_ne_nil _ hnn]
              exact l2
      · rw [if_neg hc] at hcount ⊢
        simp only []
        obtain ⟨e1, e2⟩ := ih chars (index + 1) (by omega) (by omega)
        constructor
        · intro he
          have := e1 (by omega)
          simp only [List.length_cons]
          omega
        · intro ho
          obtain ⟨l1, l2⟩ := e2 (by omega)
          have hnn : highlightLoop fuel optsStr chars (index + 1) ≠ [] := by
            intro hnil
            rw [hnil] at l1
            simp at l1
            try omega
          constructor
          · simp only [List.length_cons]
            omega
          · rw [getLast?_cons_of_ne_nil _ _ hnn]
            exact l2

/-- Claim C9 counterexample: with strings *and* characters enabled, the
content `'"'` contains a `"` with no later `"`, yet the quote is consumed by
the character-literal matcher: the highlight array has exactly 3 entries (all
`Character`), not more than the scalar count. -/
theorem c9_counterexample :
    ((asciiRow ['\'', '"', '\'']).highlight ⟨false, true, true, false, [], []⟩
        none).highlighting.length = 3 ∧
    (asciiRow ['\'', '"', '\'']).content.flatten.length = 3 ∧
    (asciiRow ['\'', '"', '\'']).content.flatten.count '"' = 1 ∧
    ((asciiRow ['\'', '"', '\'']).highlight ⟨false, true, true, false, [], []⟩
        none).highlighting =
      [HighlightType.Character, HighlightType.Character, HighlightType.Character] := by
  decide

/-- Claim C9 amended: with only string highlighting enabled (numbers,
characters, comments off, no keywords) and no search word, a row whose content
contains an odd number of `"` scalars — i.e. whose last string literal opens
without a closing quote — gets a highlight array exactly one longer than its
scalar count, the extra trailing entry being a `String` tag. -/
theorem c9_unterminated_string_amended (r : Row)
    (h : (r.content.flatten.count '"') % 2 = 1) :
    (r.highlight optsStr none).highlighting.length = r.content.flatten.length + 1 ∧
    (r.highlight optsStr none).highlighting.getLast? = some HighlightType.String := by
  unfold Row.highlight Row.highlight_matches
  simp only []
  have := (highlightLoop_optsStr (r.content.flatten.length + 1) r.content.flatten 0
    (by omega) (by omega)).2 (by simpa using h)
  simpa using this

theorem c9_witness :
    ((asciiRow ['"', 'a']).content.flatten.count '"') % 2 = 1 ∧
    ((asciiRow ['"', 'a']).highlight optsStr none).highlighting.length =
      (asciiRow ['"', 'a']).content.flatten.length + 1 ∧
    ((asciiRow ['"', 'a']).highlight optsStr none).highlighting.getLast? =
      some HighlightType.String :=
  ⟨by decide,
   (c9_unterminated_string_amended (asciiRow ['"', 'a']) (by decide)).1,
   (c9_unterminated_string_amended (asciiRow ['"', 'a']) (by decide)).2⟩

theorem map_singleton_flatten : ∀ (l : List Char), (l.map (fun c => [c])).flatten = l := by
  intro l
  induction l with
  | nil => rfl
  | cons c l ih => simp [ih]

theorem isPrefixOf_nil_eq_false (pat : List Char) (hne : pat ≠ []) :
    pat.isPrefixOf ([] : List Char) = false := by
  cases pat with
  | nil => exact absurd rfl hne
  | cons a as => rfl

theorem prefix_drop_lt (q xs : List Char) (m : Nat) (hq : q ≠ [])
    (h : q.isPrefixOf (xs.drop m) = true) : m < xs.length := by
  by_contra hc
  rw [List.drop_eq_nil_iff.mpr (by omega)] at h
  rw [isPrefixOf_nil_eq_false q hq] at h
  cases h

theorem strFind_eq_some (pat : List Char) :
    ∀ (hay : List Char) (i : Nat),
      strFind pat hay = some i ↔
      (pat.isPrefixOf (hay.drop i) = true ∧
       ∀ j, j < i → ¬ pat.isPrefixOf (hay.drop j) = true) := by
  intro hay
  induction hay with
  | nil =>
    intro i
    by_cases hp : pat.isPrefixOf ([] : List Char) = true
    · simp only [strFind, if_pos hp, List.drop_nil]
      constructor
      · intro h
        cases h
        exact ⟨hp, fun j hj => by omega⟩
      · rintro ⟨h1, h2⟩
        cases i with
        | zero => rfl
        | succ k => exact absurd hp (h2 0 (by omega))
    · simp only [strFind, if_neg hp, List.drop_nil]
      constructor
      · intro h; cases h
      · rintro ⟨h1, _⟩
        exact absurd h1 hp
  | cons c t ih =>
    intro i
    by_cases hp : pat.isPrefixOf (c :: t) = true
    · simp only [strFind, if_pos hp]
      constructor
      · intro h
        cases h
        exact ⟨by simpa using hp, fun j hj => by omega⟩
      · rintro ⟨h1, h2⟩
        cases i with
        | zero => rfl
        | succ k => exact absurd hp (by simpa using h2 0 (by omega))
    · simp only [strFind, if_neg hp]
      cases i with
      | zero =>
        simp only [List.drop_zero]
        constructor
        · intro h
          rw [Option.map_eq_some'] at h
          obtain ⟨a, _, ha⟩ := h
          omega
        · rintro ⟨h1, _⟩
          exact absurd h1 hp
      | succ k =>
        rw [Option.map_eq_some']
        constructor
        · rintro ⟨a, ha, hae⟩
          have hak : a = k := by omega
          rw [hak] at ha
          obtain ⟨g1, g2⟩ := (ih k).mp ha
          refine ⟨by simpa using g1, ?_⟩
          intro j hj
          cases j with
          | zero => simpa using hp
          | succ m => simpa using g2 m (by omega)
        · rintro ⟨h1, h2⟩
          refine ⟨k, ?_, rfl⟩
          refine (ih k).mpr ⟨by simpa using h1, ?_⟩
          intro m hm
          simpa using h2 (m + 1) (by omega)

theorem strFind_eq_none (pat : List Char) :
    ∀ (hay : List Char),
      strFind pat hay = none ↔ ∀ j, ¬ pat.isPrefixOf (hay.drop j) = true := by
  intro hay
  induction hay with
  | nil =>
    by_cases hp : pat.isPrefixOf ([] : List Char) = true
    · simp only [strFind, if_pos hp, List.drop_nil]
      constructor
      · intro h; cases h
      · intro h; exact absurd hp (h 0)
    · simp only [strFind, if_neg hp, List.drop_nil]
      constructor
      · intro _ j; exact hp
      · intro _; trivial
  | cons c t ih =>
    by_cases hp : pat.isPrefixOf (c :: t) = true
    · simp only [strFind, if_pos hp]
      constructor
      · intro h; cases h
      · intro h; exact absurd hp (by simpa using h 0)
    · simp only [strFind, if_neg hp]
      constructor
      · intro h j
        have ht : strFind pat t = none := by
          cases hs : strFind pat t with
          | none => rfl
          | some a => rw [hs] at h; cases h
        cases j with
        | zero => simpa using hp
        | succ m => simpa using (ih.mp ht) m
      · intro h
        have ht : ∀ j, ¬ pat.isPrefixOf (t.drop j) = true := by
          intro j
          simpa using h (j + 1)
        rw [ih.mpr ht]
        rfl

theorem strRFind_some_hit (pat : List Char) :
    ∀ (hay : List Char) (i : Nat),
      strRFind pat hay = some i → pat.isPrefixOf (hay.drop i) = true := by
  intro hay
  induction hay with
  | nil =>
    intro i h
    by_cases hp : pat.isPrefixOf ([] : List Char) = true
    · simp only [strRFind, if_pos hp] at h
      cases h
      simpa using hp
    · simp only [strRFind, if_neg hp] at h
      cases h
  | cons c t ih =>
    intro i h
    simp only [strRFind] at h
    cases hr : strRFind pat t with
    | some a =>
      rw [hr] at h
      simp only [Option.map_some'] at h
      cases h
      simpa using ih a hr
    | none =>
      rw [hr] at h
      simp only [Option.map_none'] at h
      by_cases hp : pat.isPrefixOf (c :: t) = true
      · rw [if_pos hp] at h
        cases h
        simpa using hp
      · rw [if_neg hp] at h
        cases h

theorem strRFind_eq_none (pat : List Char) (hne : pat ≠ []) :
    ∀ (hay : List Char),
      strRFind pat hay = none ↔ ∀ j, ¬ pat.isPrefixOf (hay.drop j) = true := by
  intro hay
  induction hay with
  | nil =>
    simp only [strRFind, isPrefixOf_nil_eq_false pat hne, List.drop_nil]
    constructor
    · intro _ j
      simp [isPrefixOf_nil_eq_false pat hne]
    · intro _
      simp
  | cons c t ih =>
    simp only [strRFind]
    cases hr : strRFind pat t with
    | some a =>
      simp only [Option.map_some']
      constructor
      · intro h; cases h
      · intro h
        have := strRFind_some_hit pat t a hr
        exact absurd (by simpa using this) (h (a + 1))
    | none =>
      simp only [Option.map_none']
      by_cases hp : pat.isPrefixOf (c :: t) = true
      · rw [if_pos hp]
        constructor
        · intro h; cases h
        · intro h
          exact absurd hp (by simpa using h 0)
      · rw [if_neg hp]
        constructor
        · intro _ j
          cases j with
          | zero => simpa using hp
          | succ m => simpa using (ih.mp hr) m
        · intro _
          rfl

theorem strRFind_eq_some (pat : List Char) (hne : pat ≠ []) :
    ∀ (hay : List Char) (i : Nat),
      strRFind pat hay = some i ↔
      (pat.isPrefixOf (hay.drop i) = true ∧
       ∀ j, i < j → ¬ pat.isPrefixOf (hay.drop j) = true) := by
  intro hay
  induction hay with
  | nil =>
    intro i
    simp only [strRFind, isPrefixOf_nil_eq_false pat hne, List.drop_nil]
    constructor
    · intro h
      cases h
    · rintro ⟨h1, _⟩
      cases h1
  | cons c t ih =>
    intro i
    simp only [strRFind]
    cases hr : strRFind pat t with
    | some a =>
      simp only [Option.map_some']
      obtain ⟨g1, g2⟩ := (ih a).mp hr
      constructor
      · intro h
        cases h
        refine ⟨by simpa using g1, ?_⟩
        intro j hj
        cases j with
        | zero => omega
        | succ m => simpa using g2 m (by omega)
      · rintro ⟨h1, h2⟩
        cases i with
        | zero => exact absurd (by simpa using g1) (h2 (a + 1) (by omega))
        | succ k =>
          have : strRFind pat t = some k := by
            refine (ih k).mpr ⟨by simpa using h1, ?_⟩
            intro m hm
            simpa using h2 (m + 1) (by omega)
          rw [hr] at this
          cases this
          rfl
    | none =>
      simp only [Option.map_none']
      have hforall := (strRFind_eq_none pat hne t).mp hr
      by_cases hp : pat.isPrefixOf (c :: t) = true
      · rw [if_pos hp]
        constructor
        · intro h
          cases h
          refine ⟨by simpa using hp, ?_⟩
          intro j hj
          cases j with
          | zero => omega
          | succ m => simpa using hforall m
        · rintro ⟨h1, h2⟩
          cases i with
          | zero => rfl
          | succ k => exact absurd (by simpa using h1) (hforall k)
      · rw [if_neg hp]
        constructor
        · intro h
          cases h
        · rintro ⟨h1, h2⟩
          cases i with
          | zero => exact absurd (by simpa using h1) hp
          | succ k => exact absurd (by simpa using h1) (hforall k)

theorem find?_range'_eq_some (p : Nat → Bool) :
    ∀ (n s v : Nat),
      (List.range' s n).find? p = some v ↔
      (s ≤ v ∧ v < s + n ∧ p v = true ∧ ∀ u, s ≤ u → u < v → p u = false) := by
  intro n
  induction n with
  | zero =>
    intro s v
    constructor
    · intro h; simp [List.range'] at h
    · rintro ⟨h1, h2, _⟩; omega
  | succ n ih =>
    intro s v
    rw [List.range'_succ]
    by_cases hp : p s = true
    · rw [List.find?_cons_of_pos _ hp]
      constructor
      · intro h
        cases h
        exact ⟨by omega, by omega, hp, fun u hu1 hu2 => by omega⟩
      · rintro ⟨h1, h2, h3, h4⟩
        by_cases hv : v = s
        · rw [hv]
        · have := h4 s (by omega) (by omega)
          rw [this] at hp
          cases hp
    · rw [List.find?_cons_of_neg _ hp]
      rw [ih (s + 1) v]
      constructor
      · rintro ⟨h1, h2, h3, h4⟩
        refine ⟨by omega, by omega, h3, ?_⟩
        intro u hu1 hu2
        by_cases hus : u = s
        · rw [hus]
          simpa using hp
        · exact h4 u (by omega) hu2
      · rintro ⟨h1, h2, h3, h4⟩
        have hsv : ¬ v = s := by
          intro hv
          rw [hv] at h3
          exact hp h3
        refine ⟨by omega, by omega, h3, fun u hu1 hu2 => h4 u (by omega) hu2⟩

theorem find?_range'_eq_none (p : Nat → Bool) (n s : Nat) :
    (List.range' s n).find? p = none ↔ ∀ u, s ≤ u → u < s + n → p u = false := by
  rw [List.find?_eq_none]
  constructor
  · intro h u h1 h2
    simpa using h u (List.mem_range'_1.mpr ⟨h1, by omega⟩)
  · intro h a ha
    obtain ⟨h1, h2⟩ := List.mem_range'_1.mp ha
    simp [h a h1 (by omega)]

theorem find?_reverse_range'_eq_some (p : Nat → Bool) :
    ∀ (n s v : Nat),
      (List.range' s n).reverse.find? p = some v ↔
      (s ≤ v ∧ v < s + n ∧ p v = true ∧ ∀ u, v < u → u < s + n → p u = false) := by
  intro n
  induction n with
  | zero =>
    intro s v
    constructor
    · intro h; simp [List.range'] at h
    · rintro ⟨h1, h2, _⟩; omega
  | succ n ih =>
    intro s v
    rw [List.range'_1_concat, List.reverse_append, List.reverse_singleton]
    simp only [List.singleton_append]
    by_cases hp : p (s + n) = true
    · rw [List.find?_cons_of_pos _ hp]
      constructor
      · intro h
        cases h
        exact ⟨by omega, by omega, hp, fun u hu1 hu2 => by omega⟩
      · rintro ⟨h1, h2, h3, h4⟩
        by_cases hv : v = s + n
        · rw [hv]
        · have := h4 (s + n) (by omega) (by omega)
          rw [this] at hp
          cases hp
    · rw [List.find?_cons_of_neg _ hp]
      rw [ih s v]
      constructor
      · rintro ⟨h1, h2, h3, h4⟩
        refine ⟨by omega, by omega, h3, ?_⟩
        intro u hu1 hu2
        by_cases hus : u = s + n
        · rw [hus]
          simpa using hp
        · exact h4 u hu1 (by omega)
      · rintro ⟨h1, h2, h3, h4⟩
        have hsv : ¬ v = s + n := by
          intro hv
          rw [hv] at h3
          exact hp h3
        refine ⟨by omega, by omega, h3, fun u hu1 hu2 => h4 u hu1 (by omega)⟩

theorem find?_reverse_range'_eq_none (p : Nat → Bool) (n s : Nat) :
    (List.range' s n).reverse.find? p = none ↔ ∀ u, s ≤ u → u < s + n → p u = false := by
  rw [List.find?_eq_none]
  constructor
  · intro h u h1 h2
    simpa using h u (by
      rw [List.mem_reverse]
      exact List.mem_range'_1.mpr ⟨h1, by omega⟩)
  · intro h a ha
    rw [List.mem_reverse] at ha
    obtain ⟨h1, h2⟩ := List.mem_range'_1.mp ha
    simp [h a h1 (by omega)]

theorem byteToGrapheme_map_singleton :
    ∀ (l : List Char) (t gi off : Nat),
      byteToGrapheme t (l.map (fun c => [c])) gi off =
        if off ≤ t ∧ t < off + l.length then some (gi + (t - off)) else none := by
  intro l
  induction l with
  | nil =>
    intro t gi off
    simp only [List.map_nil, byteToGrapheme, List.length_nil]
    rw [if_neg (by omega)]
  | cons c l ih =>
    intro t gi off
    simp only [List.map_cons, byteToGrapheme, List.length_cons]
    by_cases h : off = t
    · rw [if_pos h, if_pos (by omega)]
      simp [h]
    · rw [if_neg h, ih]
      have hlen : off + (1 : Nat) = off + List.length [c] := by simp
      split_ifs with h1 h2
      · simp only [Option.some.injEq, List.length_cons, List.length_nil, Nat.zero_add] at h1 ⊢
        omega
      · simp only [List.length_cons, List.length_nil] at h1 h2
        exact absurd ⟨by omega, by omega⟩ h2
      · rename_i h2
        simp only [List.length_cons, List.length_nil] at h1 h2
        exact absurd ⟨by omega, by omega⟩ h1
      · rfl

theorem bool_eq_false_of_not_true {b : Bool} (h : ¬ b = true) : b = false := by
  cases b
  · rfl
  · exact absurd rfl h

theorem find_eq_findSpec_forward (cs : List Char) (hl : List HighlightType)
    (q : List Char) (atPos : Nat) (h0 : ¬ (cs.length < atPos ∨ q = [])) :
    Row.find ⟨cs.map (fun c => [c]), hl, cs.length⟩ q atPos SearchDirection.Forward =
      Row.findSpec ⟨cs.map (fun c => [c]), hl, cs.length⟩ q atPos SearchDirection.Forward := by
  have hle : atPos ≤ cs.length := by omega
  have hq : q ≠ [] := fun hmm => h0 (Or.inr hmm)
  have hsub : (((cs.map (fun c => [c])).drop atPos).take (cs.length - atPos)).flatten
      = cs.drop atPos := by
    rw [← List.map_drop, List.take_of_length_le (by simp), map_singleton_flatten]
  have hfun : (fun i => q.isPrefixOf (((cs.map (fun c => [c])).drop i).flatten))
      = fun i => q.isPrefixOf (cs.drop i) := by
    funext i
    rw [← List.map_drop, map_singleton_flatten]
  cases hm : strFind q (cs.drop atPos) with
  | some m =>
    obtain ⟨g1, g2⟩ := (strFind_eq_some q (cs.drop atPos) m).mp hm
    have hmlt : m < cs.length - atPos := by
      have := prefix_drop_lt q (cs.drop atPos) m hq g1
      simpa using this
    have hfind : Row.find ⟨cs.map (fun c => [c]), hl, cs.length⟩ q atPos
        SearchDirection.Forward = some (atPos + m) := by
      simp only [Row.find, reduceIte, if_neg h0, hsub]
      rw [hm]
      simp only [byteToGrapheme_map_singleton]
      rw [if_pos (by omega : 0 ≤ m ∧ m < 0 + cs.length)]
      simp
    have hspec : Row.findSpec ⟨cs.map (fun c => [c]), hl, cs.length⟩ q atPos
        SearchDirection.Forward = some (atPos + m) := by
      simp only [Row.findSpec, if_neg h0, hfun]
      rw [find?_range'_eq_some]
      refine ⟨by omega, by omega, ?_, ?_⟩
      · have := g1
        rw [List.drop_drop] at this
        exact this
      · intro u hu1 hu2
        have hj := g2 (u - atPos) (by omega)
        rw [List.drop_drop] at hj
        have hue : atPos + (u - atPos) = u := by omega
        rw [hue] at hj
        exact bool_eq_false_of_not_true hj
    rw [hfind, hspec]
  | none =>
    have hall := (strFind_eq_none q (cs.drop atPos)).mp hm
    have hfind : Row.find ⟨cs.map (fun c => [c]), hl, cs.length⟩ q atPos
        SearchDirection.Forward = none := by
      simp only [Row.find, reduceIte, if_neg h0, hsub]
      rw [hm]
    have hspec : Row.findSpec ⟨cs.map (fun c => [c]), hl, cs.length⟩ q atPos
        SearchDirection.Forward = none := by
      simp only [Row.findSpec, if_neg h0, hfun]
      rw [find?_range'_eq_none]
      intro u h1 h2
      have hj := hall (u - atPos)
      rw [List.drop_drop] at hj
      have hue : atPos + (u - atPos) = u := by omega
      rw [hue] at hj
      exact bool_eq_false_of_not_true hj
    rw [hfind, hspec]

theorem find_eq_findSpec_backward (cs : List Char) (hl : List HighlightType)
    (q : List Char) (atPos : Nat) (h0 : ¬ (cs.length < atPos ∨ q = [])) :
    Row.find ⟨cs.map (fun c => [c]), hl, cs.length⟩ q atPos SearchDirection.Backward =
      Row.findSpec ⟨cs.map (fun c => [c]), hl, cs.length⟩ q atPos SearchDirection.Backward := by
  have hle : atPos ≤ cs.length := by omega
  have hq : q ≠ [] := fun hmm => h0 (Or.inr hmm)
  have hdir : ¬ (SearchDirection.Backward = SearchDirection.Forward) := by decide
  have hsub : (((cs.map (fun c => [c])).drop 0).take (atPos - 0)).flatten = cs.take atPos := by
    rw [List.drop_zero, Nat.sub_zero, ← List.map_take, map_singleton_flatten]
  have hfun : (fun i => q.isPrefixOf ((((cs.map (fun c => [c])).take atPos).drop i).flatten))
      = fun i => q.isPrefixOf ((cs.take atPos).drop i) := by
    funext i
    rw [← List.map_take, ← List.map_drop, map_singleton_flatten]
  cases hm : strRFind q (cs.take atPos) with
  | some m =>
    obtain ⟨g1, g2⟩ := (strRFind_eq_some q hq (cs.take atPos) m).mp hm
    have hmlt : m < atPos := by
      have := prefix_drop_lt q (cs.take atPos) m hq g1
      simp only [List.length_take] at this
      omega
    have hfind : Row.find ⟨cs.map (fun c => [c]), hl, cs.length⟩ q atPos
        SearchDirection.Backward = some m := by
      simp only [Row.find, if_neg hdir, if_neg h0, hsub]
      rw [hm]
      simp only [byteToGrapheme_map_singleton]
      rw [if_pos (by omega : 0 ≤ m ∧ m < 0 + cs.length)]
      simp
    have hspec : Row.findSpec ⟨cs.map (fun c => [c]), hl, cs.length⟩ q atPos
        SearchDirection.Backward = some m := by
      simp only [Row.findSpec, if_neg h0, hfun]
      rw [find?_reverse_range'_eq_some]
      refine ⟨by omega, by omega, g1, ?_⟩
      intro u hu1 hu2
      exact bool_eq_false_of_not_true (g2 u hu1)
    rw [hfind, hspec]
  | none =>
    have hall := (strRFind_eq_none q hq (cs.take atPos)).mp hm
    have hfind : Row.find ⟨cs.map (fun c => [c]), hl, cs.length⟩ q atPos
        SearchDirection.Backward = none := by
      simp only [Row.find, if_neg hdir, if_neg h0, hsub]
      rw [hm]
    have hspec : Row.findSpec ⟨cs.map (fun c => [c]), hl, cs.length⟩ q atPos
        SearchDirection.Backward = none := by
      simp only [Row.findSpec, if_neg h0, hfun]
      rw [find?_reverse_range'_eq_none]
      intro u h1 h2
      exact bool_eq_false_of_not_true (hall u)
    rw [hfind, hspec]

/-- Claim C4 counterexample: content `a`, `é` (e + combining acute, one
grapheme of two scalars), `b`; query `"b"`, Forward from offset 1.  The match
is at grapheme 2 of the searched range (as the spec-side `findSpec` reports),
but `find` returns `None`: the byte offset of the hit inside the substring is
compared against byte offsets of the full content, which the two-unit cluster
shifts. -/
theorem c4_counterexample :
    Row.find (Row.ofGraphemes [['a'], ['e', Char.ofNat 0x301], ['b']]) ['b'] 1
      SearchDirection.Forward = none ∧
    Row.findSpec (Row.ofGraphemes [['a'], ['e', Char.ofNat 0x301], ['b']]) ['b'] 1
      SearchDirection.Forward = some 2 := by
  decide

/-- Claim C4 amended: for rows all of whose graphemes are single scalar values
(e.g. ASCII content), `find` returns exactly the grapheme index of the first
match honoring the direction — Forward searching `[at, len)`, Backward
searching `[0, at)` — with empty query or `at > len` yielding `None`; in
particular the `"abcabc"` examples hold. -/
theorem c4_find_amended :
    (∀ (cs : List Char) (hl : List HighlightType) (q : List Char) (atPos : Nat)
        (d : SearchDirection),
      Row.find ⟨cs.map (fun c => [c]), hl, cs.length⟩ q atPos d =
        Row.findSpec ⟨cs.map (fun c => [c]), hl, cs.length⟩ q atPos d) ∧
    Row.find (asciiRow "abcabc".toList) "abc".toList 0 SearchDirection.Forward = some 0 ∧
    Row.find (asciiRow "abcabc".toList) "abc".toList 6 SearchDirection.Backward = some 3 := by
  refine ⟨?_, by decide, by decide⟩
  intro cs hl q atPos d
  by_cases h0 : cs.length < atPos ∨ q = []
  · simp only [Row.find, Row.findSpec]
    rw [if_pos h0, if_pos h0]
  · cases d with
    | Forward => exact find_eq_findSpec_forward cs hl q atPos h0
    | Backward => exact find_eq_findSpec_backward cs hl q atPos h0

theorem c4_witness :
    Row.find ⟨"zab".toList.map (fun c => [c]), [], "zab".toList.length⟩ "ab".toList 1
        SearchDirection.Forward =
      Row.findSpec ⟨"zab".toList.map (fun c => [c]), [], "zab".toList.length⟩ "ab".toList 1
        SearchDirection.Forward :=
  c4_find_amended.1 "zab".toList [] "ab".toList 1 SearchDirection.Forward

theorem reSegAux_extendRun :
    ∀ (t : List Char), t.all isExtend = true →
      ∀ (cur rest : List Char), reSegAux cur (t ++ rest) = reSegAux (t.reverse ++ cur) rest := by
  intro t
  induction t with
  | nil => intro _ cur rest; simp
  | cons x t ih =>
    intro hall cur rest
    simp only [List.all_cons, Bool.and_eq_true] at hall
    rw [List.cons_append]
    rw [show reSegAux cur (x :: (t ++ rest)) =
          if isExtend x then reSegAux (x :: cur) (t ++ rest)
          else cur.reverse :: reSegAux [x] (t ++ rest) from rfl]
    rw [if_pos hall.1, ih hall.2 (x :: cur) rest]
    simp [List.reverse_cons, List.append_assoc]

theorem reSegment_good :
    ∀ (L : List Grapheme), L.all goodCluster = true → reSegment L.flatten = L := by
  intro L
  induction L with
  | nil => intro _; rfl
  | cons g L ih =>
    intro hall
    simp only [List.all_cons, Bool.and_eq_true] at hall
    obtain ⟨hg, hL⟩ := hall
    cases g with
    | nil => cases hg
    | cons h t =>
      simp only [goodCluster, Bool.and_eq_true, Bool.not_eq_true'] at hg
      obtain ⟨hh, ht⟩ := hg
      simp only [List.flatten_cons, List.cons_append, reSegment]
      rw [reSegAux_extendRun t ht [h] L.flatten]
      cases hLc : L with
      | nil =>
        show reSegAux (t.reverse ++ [h]) [] = [h :: t]
        simp [reSegAux, List.reverse_append]
      | cons g2 L2 =>
        rw [hLc] at hL ih
        have hg2 : goodCluster g2 = true := by
          simp only [List.all_cons, Bool.and_eq_true] at hL
          exact hL.1
        cases g2 with
        | nil => cases hg2
        | cons h2 t2 =>
          simp only [goodCluster, Bool.and_eq_true, Bool.not_eq_true'] at hg2
          have hfl : ((h2 :: t2) :: L2).flatten = h2 :: (t2 ++ L2.flatten) := by simp
          rw [hfl]
          have hrec : reSegAux [h2] (t2 ++ L2.flatten) = (h2 :: t2) :: L2 := by
            have hih := ih hL
            rw [hfl] at hih
            exact hih
          rw [show reSegAux (t.reverse ++ [h]) (h2 :: (t2 ++ L2.flatten)) =
                if isExtend h2 then reSegAux (h2 :: (t.reverse ++ [h])) (t2 ++ L2.flatten)
                else (t.reverse ++ [h]).reverse :: reSegAux [h2] (t2 ++ L2.flatten) from rfl]
          rw [if_neg (by rw [hg2.1]; simp), hrec]
          simp [List.reverse_append]

theorem insertLoop_content (c : Char) (atPos : Nat) :
    ∀ (gs : List Grapheme) (i : Nat),
      (insertLoop c atPos i gs).1 =
        if i ≤ atPos ∧ atPos < i + gs.length
        then gs.take (atPos - i) ++ [c] :: gs.drop (atPos - i)
        else gs := by
  intro gs
  induction gs with
  | nil =>
    intro i
    simp only [insertLoop, List.length_nil]
    rw [if_neg (by omega)]
  | cons g gs ih =>
    intro i
    by_cases h : i = atPos
    · have hrec : (insertLoop c atPos (i + 1) gs).1 = gs := by
        rw [ih (i + 1), if_neg (by omega)]
      simp only [insertLoop, if_pos h, hrec, List.length_cons]
      rw [if_pos (by omega), (by omega : atPos - i = 0)]
      simp
    · by_cases h2 : i + 1 ≤ atPos ∧ atPos < i + 1 + gs.length
      · have hsub : atPos - i = (atPos - (i + 1)) + 1 := by omega
        simp only [insertLoop, if_neg h, ih (i + 1), if_pos h2, List.length_cons]
        rw [if_pos (by omega), hsub, List.take_succ_cons, List.drop_succ_cons]
        simp
      · have hrec : (insertLoop c atPos (i + 1) gs).1 = gs := by
          rw [ih (i + 1), if_neg h2]
        simp only [insertLoop, if_neg h, hrec, List.length_cons]
        rw [if_neg (by omega)]

theorem deleteLoop_content (atPos : Nat) :
    ∀ (gs : List Grapheme) (i : Nat),
      (deleteLoop atPos i gs).1 =
        if i ≤ atPos ∧ atPos < i + gs.length
        then gs.take (atPos - i) ++ gs.drop (atPos - i + 1)
        else gs := by
  intro gs
  induction gs with
  | nil =>
    intro i
    simp only [deleteLoop, List.length_nil]
    rw [if_neg (by omega)]
  | cons g gs ih =>
    intro i
    by_cases h : i = atPos
    · have hrec : (deleteLoop atPos (i + 1) gs).1 = gs := by
        rw [ih (i + 1), if_neg (by omega)]
      simp only [deleteLoop, if_pos h, hrec, List.length_cons]
      rw [if_pos (by omega), (by omega : atPos - i = 0)]
      simp
    · by_cases h2 : i + 1 ≤ atPos ∧ atPos < i + 1 + gs.length
      · have hsub : atPos - i = (atPos - (i + 1)) + 1 := by omega
        simp only [deleteLoop, if_neg h, ih (i + 1), if_pos h2, List.length_cons]
        rw [if_pos (by omega), hsub, List.take_succ_cons]
        simp only [List.drop_succ_cons, List.cons_append]
      · have hrec : (deleteLoop atPos (i + 1) gs).1 = gs := by
          rw [ih (i + 1), if_neg h2]
        simp only [deleteLoop, if_neg h, hrec, List.length_cons]
        rw [if_neg (by omega)]

theorem all_good_splice (L : List Grapheme) (hall : L.all goodCluster = true)
    (mid : List Grapheme) (hmid : mid.all goodCluster = true) (n m : Nat) :
    (L.take n ++ (mid ++ L.drop m)).all goodCluster = true := by
  rw [List.all_eq_true] at *
  intro x hx
  rcases List.mem_append.mp hx with h | h
  · exact hall x (List.take_subset n L h)
  · rcases List.mem_append.mp h with h | h
    · exact hmid x h
    · exact hall x (List.drop_subset m L h)

/-- Claim C3 counterexample: pushing the combining acute U+0301 onto the row
`"e"` takes the push branch of `Row::insert` (`content.push(c); len += 1`), so
the cached `len` becomes 2, yet the stored text `e`+U+0301 re-segments as a
single grapheme cluster; `Row::append` of a row starting with U+0301 sums the
cached lengths and diverges the same way. -/
theorem c3_counterexample :
    ((Row.ofGraphemes [['e']]).insert 1 (Char.ofNat 0x301)).len = 2 ∧
    (reSegment ((Row.ofGraphemes [['e']]).insert 1
        (Char.ofNat 0x301)).content.flatten).length = 1 ∧
    ((Row.ofGraphemes [['e']]).append (Row.ofGraphemes [[Char.ofNat 0x301]])).len = 2 ∧
    (reSegment ((Row.ofGraphemes [['e']]).append
        (Row.ofGraphemes [[Char.ofNat 0x301]])).content.flatten).length = 1 := by
  decide

/-- Claim C3 amended: for a well-formed row whose clusters are each a base
scalar followed only by combining (Grapheme_Extend) scalars, delete and split
always re-establish cached `len` = grapheme-cluster count of the stored text,
and insert and append do so provided no clusters merge at the seam: the
inserted scalar is not a combining scalar, and the appended row's clusters are
of the same shape (so its first scalar is a base scalar).  Without these
provisos the invariant fails (see the counterexample). -/
theorem c3_mutators_amended (r r2 : Row) (atPos : Nat) (c : Char)
    (hwf : r.wf) (hgood : r.content.all goodCluster = true)
    (hwf2 : r2.wf) (hgood2 : r2.content.all goodCluster = true)
    (hc : isExtend c = false) :
    (r.insert atPos c).len = (reSegment (r.insert atPos c).content.flatten).length ∧
    (r.delete atPos).len = (reSegment (r.delete atPos).content.flatten).length ∧
    ((r.split atPos).1).len = (reSegment ((r.split atPos).1).content.flatten).length ∧
    ((r.split atPos).2).len = (reSegment ((r.split atPos).2).content.flatten).length ∧
    (r.append r2).len = (reSegment (r.append r2).content.flatten).length := by
  obtain ⟨h1, h2, h3, h4, h5⟩ := mutators_preserve_cached_len r r2 atPos c hwf hwf2
  have hg_ins : (r.insert atPos c).content.all goodCluster = true := by
    unfold Row.insert
    by_cases hb : r.len ≤ atPos
    · simp only [if_pos hb]
      simp [List.all_append, hgood, goodCluster, hc]
    · simp only [if_neg hb]
      rw [insertLoop_content, if_pos (by rw [hwf] at hb; omega)]
      simpa using all_good_splice r.content hgood [[c]] (by simp [goodCluster, hc]) atPos atPos
  have hg_del : (r.delete atPos).content.all goodCluster = true := by
    unfold Row.delete
    by_cases hb : atPos < r.len
    · simp only [if_pos hb]
      rw [deleteLoop_content, if_pos (by rw [hwf] at hb; omega)]
      simpa using all_good_splice r.content hgood [] (by simp) atPos (atPos + 1)
    · simp only [if_neg hb]
      exact hgood
  have hg_sp1 : ((r.split atPos).1).content.all goodCluster = true := by
    rw [Row.split_eq]
    rw [List.all_eq_true] at hgood ⊢
    intro x hx
    exact hgood x (List.take_subset _ _ hx)
  have hg_sp2 : ((r.split atPos).2).content.all goodCluster = true := by
    rw [Row.split_eq]
    rw [List.all_eq_true] at hgood ⊢
    intro x hx
    exact hgood x (List.drop_subset _ _ hx)
  have hg_app : (r.append r2).content.all goodCluster = true := by
    simp [Row.append, List.all_append, hgood, hgood2]
  refine ⟨?_, ?_, ?_, ?_, ?_⟩
  · rw [reSegment_good _ hg_ins]; exact h1
  · rw [reSegment_good _ hg_del]; exact h2
  · rw [reSegment_good _ hg_sp1]; exact h3
  · rw [reSegment_good _ hg_sp2]; exact h4
  · rw [reSegment_good _ hg_app]; exact h5

theorem c3_witness :
    (asciiRow "ab".toList).wf ∧ (asciiRow "ab".toList).content.all goodCluster = true ∧
    (asciiRow "c".toList).wf ∧ (asciiRow "c".toList).content.all goodCluster = true ∧
    isExtend 'x' = false ∧
    (((asciiRow "ab".toList).insert 1 'x').len =
       (reSegment ((asciiRow "ab".toList).insert 1 'x').content.flatten).length ∧
     ((asciiRow "ab".toList).delete 1).len =
       (reSegment ((asciiRow "ab".toList).delete 1).content.flatten).length ∧
     (((asciiRow "ab".toList).split 1).1).len =
       (reSegment (((asciiRow "ab".toList).split 1).1).content.flatten).length ∧
     (((asciiRow "ab".toList).split 1).2).len =
       (reSegment (((asciiRow "ab".toList).split 1).2).content.flatten).length ∧
     ((asciiRow "ab".toList).append (asciiRow "c".toList)).len =
       (reSegment ((asciiRow "ab".toList).append
           (asciiRow "c".toList)).content.flatten).length) :=
  ⟨by decide, by decide, by decide, by decide, by decide,
   c3_mutators_amended (asciiRow "ab".toList) (asciiRow "c".toList) 1 'x'
     (by decide) (by decide) (by decide) (by decide) (by decide)⟩
